import Mathlib

/-!
Verification development for the streaming-report ingestion and
progress-state-machine subsystem of the longevity-protocol-validator
front end.

The embedding covers:
* the progress data model (`src/frontend/src/app/core/models/progress.model.ts`),
* the state-management operations (`src/frontend/src/app/core/services/state.service.ts`),
* the stream transport's frame-parsing loop and event dispatch
  (`src/frontend/src/app/core/services/report.service.ts`).

Strings of the TypeScript source are modelled as Lean `String` in the
state-machine part and as `List Char` in the character-level frame
parser; JavaScript numbers that only ever carry integral percentages
are modelled as `Int`.
-/

namespace LPV

/-! ## Progress data model (progress.model.ts) -/

/-- Status of a progress step (`ProgressStepStatus`). -/
inductive StepStatus where
  | pending
  | active
  | complete
  | error
deriving DecidableEq, Repr

/-- Runtime state of a progress step (`ProgressStep`).  The optional
`detail` models the TypeScript optional field (`undefined` = `none`). -/
structure ProgressStep where
  id : String
  label : String
  status : StepStatus
  detail : Option String
deriving DecidableEq, Repr

/-- Complete research progress state (`ResearchProgress`).
`progressPercent` is a JS number holding integral percentages; modelled
as `Int`. -/
structure ResearchProgress where
  steps : List ProgressStep
  currentStepId : Option String
  progressPercent : Int
  isComplete : Bool
  hasError : Bool
  errorMessage : Option String
deriving DecidableEq, Repr

/-- Progress event received from the backend stream (`ProgressEvent`).
`detail` is `string | null` in the source, modelled as `Option String`. -/
structure ProgressEvent where
  step : String
  message : String
  detail : Option String
  progress : Int
deriving DecidableEq, Repr

/-- Default step configuration (`PROGRESS_STEPS_CONFIG`) as `(id, label)`
pairs; the `order` field of the source is its 1-based list position and
is never read by the state machine, so it is carried by position here. -/
def PROGRESS_STEPS_CONFIG : List (String × String) :=
  [ ("optimizing", "Optimizing search queries"),
    ("searching_pubmed", "Searching PubMed"),
    ("searching_openalex", "Searching OpenAlex"),
    ("searching_europepmc", "Searching Europe PMC"),
    ("searching_crossref", "Searching CrossRef"),
    ("concept_search", "Running concept searches"),
    ("deduplicating", "Removing duplicates"),
    ("ranking", "Ranking by relevance"),
    ("filtering", "Filtering with AI"),
    ("generating_findings", "Generating findings"),
    ("extracting_protocols", "Extracting protocols") ]

/-- The fixed pipeline order of step identifiers. -/
def fixedStepIds : List String := PROGRESS_STEPS_CONFIG.map (fun c => c.1)

/-- Create the initial progress state with all steps pending
(`createInitialProgress`). -/
def createInitialProgress : ResearchProgress :=
  { steps := PROGRESS_STEPS_CONFIG.map (fun config =>
      { id := config.1, label := config.2, status := .pending, detail := none }),
    currentStepId := none,
    progressPercent := 0,
    isComplete := false,
    hasError := false,
    errorMessage := none }

/-! ## Report model (report.model.ts), as far as the state machine needs it -/

/-- Source reference (`Source`). -/
structure Source where
  index : Int
  title : String
  journal : String
  year : Int
  pmid : String
  abstract : String
  url : String
  citation_count : Int
  relevance_reason : Option String
deriving DecidableEq, Repr

/-- A key finding (`Finding`); `confidence` is one of the union strings. -/
structure Finding where
  statement : String
  source_indices : List Int
  confidence : String
deriving DecidableEq, Repr

/-- An extracted protocol (`Protocol`). -/
structure Protocol where
  name : String
  species : String
  dosage : String
  frequency : Option String
  duration : Option String
  result : String
  source_index : Int
deriving DecidableEq, Repr

/-- Complete research report structure (`ResearchReport`). -/
structure ResearchReport where
  id : String
  question : String
  generated_at : String
  executive_summary : String
  key_findings : List Finding
  detailed_analysis : String
  protocols : List Protocol
  limitations : String
  sources : List Source
  total_papers_searched : Int
  papers_used : Int
deriving DecidableEq, Repr

/-- Active tab selector of the state service. -/
inductive Tab where
  | findings
  | protocols
  | sources
deriving DecidableEq, Repr

/-- The full mutable state held by `StateService`, one field per signal. -/
structure AppState where
  report : Option ResearchReport
  isLoading : Bool
  loadingMessage : String
  followUpMessages : List (String × String)
  activeTab : Tab
  expandedSources : List Nat
  error : Option String
  isFollowUpLoading : Bool
  progress : ResearchProgress
deriving DecidableEq, Repr

/-- The state of a freshly constructed `StateService`: every signal at
its declared initial value. -/
def initialAppState : AppState :=
  { report := none,
    isLoading := false,
    loadingMessage := "",
    followUpMessages := [],
    activeTab := .findings,
    expandedSources := [],
    error := none,
    isFollowUpLoading := false,
    progress := createInitialProgress }

/-! ## State-service operations (state.service.ts) -/

/-- Model of the JavaScript expression `event.detail || undefined`:
`null` and the empty string are falsy and become `undefined` (`none`). -/
def detailOrUndefined (d : Option String) : Option String :=
  match d with
  | none => none
  | some s => if s = "" then none else some s

/-- JS-style `Array.prototype.map((elem, idx) => ...)`: map with the
element index, starting from `i`. -/
def mapWithIdx {α β : Type} (f : Nat → α → β) : Nat → List α → List β
  | _, [] => []
  | i, a :: t => f i a :: mapWithIdx f (i + 1) t

/-- The pure update function passed to `this._progress.update` inside
`StateService.updateProgress` (state.service.ts lines 87-117): find the
index of the step matching `event.step`; if absent return the state
unchanged; otherwise mark earlier steps complete, the matched step
active (with `event.detail || undefined`), later steps pending, and set
`currentStepId` and `progressPercent` from the event. -/
def applyProgress (current : ResearchProgress) (event : ProgressEvent) : ResearchProgress :=
  match current.steps.findIdx? (fun s => s.id == event.step) with
  | none => current
  | some stepIndex =>
    { current with
      steps := mapWithIdx (fun idx step =>
        if idx < stepIndex then
          { step with status := .complete }
        else if idx = stepIndex then
          { step with status := .active, detail := detailOrUndefined event.detail }
        else
          { step with status := .pending }) 0 current.steps,
      currentStepId := some event.step,
      progressPercent := event.progress }

/-- `StateService.updateProgress`: update the progress signal through
`applyProgress` and also set the loading message from the event. -/
def updateProgress (s : AppState) (event : ProgressEvent) : AppState :=
  { s with
    progress := applyProgress s.progress event,
    loadingMessage := event.message }

/-- `StateService.setReport`: store the report; when it is non-null,
clear the error signal and mark progress complete (all steps complete,
`progressPercent = 100`, `isComplete = true`). -/
def setReport (s : AppState) (report : Option ResearchReport) : AppState :=
  match report with
  | some r =>
    { s with
      report := some r,
      error := none,
      progress :=
        { s.progress with
          isComplete := true,
          progressPercent := 100,
          steps := s.progress.steps.map (fun st => { st with status := .complete }) } }
  | none => { s with report := none }

/-- `StateService.setLoading`: set the loading flag and message; when a
new load starts, reset progress to the initial state. -/
def setLoading (s : AppState) (isLoading : Bool) (message : String) : AppState :=
  let s1 := { s with isLoading := isLoading, loadingMessage := message }
  if isLoading then { s1 with progress := createInitialProgress } else s1

/-- `StateService.setProgressError`: mark progress as errored, attach
the message, and demote the currently active steps to `error`. -/
def setProgressError (s : AppState) (errorMessage : String) : AppState :=
  { s with
    progress :=
      { s.progress with
        hasError := true,
        errorMessage := some errorMessage,
        steps := s.progress.steps.map (fun st =>
          if st.status = .active then { st with status := .error } else st) } }

/-- `StateService.resetState`: reset every signal the method touches
(`loadingMessage` and `isFollowUpLoading` are not touched by the source). -/
def resetState (s : AppState) : AppState :=
  { s with
    report := none,
    followUpMessages := [],
    expandedSources := [],
    activeTab := .findings,
    error := none,
    isLoading := false,
    progress := createInitialProgress }

/-- One invocation of a progress-relevant `StateService` operation. -/
inductive Op where
  | update (event : ProgressEvent)
  | progressError (msg : String)
  | report (r : Option ResearchReport)
  | loading (b : Bool) (msg : String)
  | reset
deriving DecidableEq, Repr

/-- Apply one operation to the service state. -/
def applyOp (s : AppState) : Op → AppState
  | .update event => updateProgress s event
  | .progressError msg => setProgressError s msg
  | .report r => setReport s r
  | .loading b msg => setLoading s b msg
  | .reset => resetState s

/-- Run a sequence of operations from a starting state. -/
def runOps (s : AppState) (ops : List Op) : AppState :=
  ops.foldl applyOp s

/-! ## Frame parser (report.service.ts, generateReport read loop)

The read loop of `ReportService.generateReport` (lines 68-96) keeps a
carried text buffer, appends each decoded chunk, splits on the
double-newline frame delimiter, holds the last split segment back as
the new buffer, and scans every other segment with the two regular
expressions `event: (\w+)` and `data: (.+)` (the latter with the
dotall flag).  Text is modelled as `List Char`. -/

/-- Prepend a character to the first segment of a split result. -/
def consHead (c : Char) : List (List Char) → List (List Char)
  | [] => [[c]]
  | s :: ss => (c :: s) :: ss

/-- JavaScript `buffer.split(String.fromCharCode(10, 10))`: leftmost,
non-overlapping splitting of a character list on the two-character
delimiter of two newlines.  The empty string splits to one empty
segment, exactly as in JavaScript. -/
def splitNN : List Char → List (List Char)
  | [] => [[]]
  | [c] => [[c]]
  | c :: d :: t =>
    if c = '\n' ∧ d = '\n' then [] :: splitNN t
    else consHead c (splitNN (d :: t))

/-- JavaScript `lines.pop() || empty`: the last split segment, which the
loop keeps back as the carried buffer (the empty default coincides with
the last segment when that segment is empty). -/
def lastSegD : List (List Char) → List Char
  | [] => []
  | [s] => s
  | _ :: s :: t => lastSegD (s :: t)

/-- Whether a character list contains the double-newline delimiter. -/
def hasNN : List Char → Bool
  | [] => false
  | [_] => false
  | c :: d :: t => if c = '\n' ∧ d = '\n' then true else hasNN (d :: t)

/-- Whitespace stripped by JavaScript `String.prototype.trim` (the ASCII
subset, which covers every character this protocol produces). -/
def isJsWs (c : Char) : Bool :=
  c = ' ' || c = '\t' || c = '\n' || c = '\r' || c = '\x0B' || c = '\x0C'

/-- Model of the guard `!chunk.trim()` of the loop: a segment is skipped
when every character is whitespace (equivalently, trimming empties it). -/
def isBlankSeg (seg : List Char) : Bool := seg.all isJsWs

/-- A regular-expression word character, the class matched by a
backslash-w atom. -/
def isWordChar (c : Char) : Bool :=
  ('a' ≤ c && c ≤ 'z') || ('A' ≤ c && c ≤ 'Z') || ('0' ≤ c && c ≤ '9') || c = '_'

/-- Attempt to match the pattern `event: (\w+)` at the start of `s`:
the literal seven characters of the event prefix followed by at least
one word character; the greedy capture is the maximal word-character
run. -/
def matchEventAt (s : List Char) : Option (List Char) :=
  if ("event: ".toList).isPrefixOf s then
    let w := (s.drop 7).takeWhile isWordChar
    if w = [] then none else some w
  else none

/-- `chunk.match` with `event: (\w+)`: the leftmost position where the
whole pattern matches, scanning left to right; returns the capture. -/
def findEventName : List Char → Option (List Char)
  | [] => none
  | c :: t =>
    match matchEventAt (c :: t) with
    | some w => some w
    | none => findEventName t

/-- Attempt to match `data: (.+)` with the dotall flag at the start of
`s`: the six-character data prefix followed by at least one character;
the greedy dotall capture is the entire remaining suffix. -/
def matchDataAt (s : List Char) : Option (List Char) :=
  if ("data: ".toList).isPrefixOf s then
    let rest := s.drop 6
    if rest = [] then none else some rest
  else none

/-- `chunk.match` with the dotall `data: (.+)` pattern: leftmost match,
capture to end of segment. -/
def findData : List Char → Option (List Char)
  | [] => none
  | c :: t =>
    match matchDataAt (c :: t) with
    | some d => some d
    | none => findData t

/-- The per-segment frame test of the loop body: skip blank segments,
then require both the event match and the data match; a matched segment
yields the raw frame of (event name, data text). -/
def extractFrame (seg : List Char) : Option (List Char × List Char) :=
  if isBlankSeg seg then none
  else
    match findEventName seg, findData seg with
    | some name, some dstr => some (name, dstr)
    | _, _ => none

/-- One iteration of the read loop at the framing level: append the new
chunk to the carried buffer, split on the delimiter, keep the last
segment back as the new buffer, and emit the raw frames of the other
segments in order. -/
def parseStep (buffer chunk : List Char) :
    List (List Char × List Char) × List Char :=
  let segs := splitNN (buffer ++ chunk)
  (segs.dropLast.filterMap extractFrame, lastSegD segs)

/-- Feed a sequence of chunks through successive parse steps, threading
the carried buffer and accumulating the emitted frames in order. -/
def feedChunks (buffer : List Char) :
    List (List Char) → List (List Char × List Char) × List Char
  | [] => ([], buffer)
  | c :: cs =>
    let r := parseStep buffer c
    let r2 := feedChunks r.2 cs
    (r.1 ++ r2.1, r2.2)

/-! ## JSON values and JSON.parse (platform builtin used by the loop)

`JSON.parse` is the JavaScript builtin applied to the captured data
text of every matched frame.  It is modelled here by a recursive
descent parser over the JSON grammar.  Model simplifications: numbers
are kept as their lexeme (no claim computes with them), a Unicode
escape becomes the character of its code unit without surrogate-pair
combination, and the parsing fuel of four units per input character is
ample for every physically possible nesting depth (each nesting level
consumes at least one character while costing at most three fuel
units, plus one for the final value). -/

/-- A JSON value as produced by `JSON.parse`.  Object members keep
source order; duplicate keys are resolved at lookup (last one wins,
as in JavaScript). -/
inductive Json where
  | null
  | bool (b : Bool)
  | num (lexeme : List Char)
  | str (s : List Char)
  | arr (elems : List Json)
  | obj (members : List (List Char × Json))

/-- JSON insignificant whitespace: space, tab, line feed, carriage
return. -/
def isJsonWs (c : Char) : Bool := c = ' ' || c = '\t' || c = '\n' || c = '\r'

/-- Skip leading JSON whitespace. -/
def skipWs (s : List Char) : List Char := s.dropWhile isJsonWs

/-- Decimal digit test. -/
def isDigit (c : Char) : Bool := '0' ≤ c && c ≤ '9'

/-- Hexadecimal digit test. -/
def isHexDigit (c : Char) : Bool :=
  isDigit c || ('a' ≤ c && c ≤ 'f') || ('A' ≤ c && c ≤ 'F')

/-- Value of a hexadecimal digit. -/
def hexVal (c : Char) : Nat :=
  if isDigit c then c.toNat - '0'.toNat
  else if 'a' ≤ c && c ≤ 'f' then c.toNat - 'a'.toNat + 10
  else c.toNat - 'A'.toNat + 10

/-- Single-character JSON string escapes. -/
def escChar (e : Char) : Option Char :=
  if e = '"' then some '"'
  else if e = '\\' then some '\\'
  else if e = '/' then some '/'
  else if e = 'b' then some '\x08'
  else if e = 'f' then some '\x0C'
  else if e = 'n' then some '\n'
  else if e = 'r' then some '\r'
  else if e = 't' then some '\t'
  else none

/-- Parse the body of a JSON string after the opening quote, returning
the decoded characters and the remainder after the closing quote.
Raw control characters are rejected, as in the JSON grammar. -/
def parseStringBody : List Char → Option (List Char × List Char)
  | [] => none
  | c :: rest =>
    if c = '"' then some ([], rest)
    else if c = '\\' then
      match rest with
      | [] => none
      | e :: rest2 =>
        if e = 'u' then
          match rest2 with
          | h1 :: h2 :: h3 :: h4 :: rest3 =>
            if isHexDigit h1 && isHexDigit h2 && isHexDigit h3 && isHexDigit h4 then
              (parseStringBody rest3).map (fun p =>
                (Char.ofNat (((hexVal h1 * 16 + hexVal h2) * 16 + hexVal h3) * 16
                  + hexVal h4) :: p.1, p.2))
            else none
          | _ => none
        else
          match escChar e with
          | some ec => (parseStringBody rest2).map (fun p => (ec :: p.1, p.2))
          | none => none
    else if c.toNat < 0x20 then none
    else (parseStringBody rest).map (fun p => (c :: p.1, p.2))

/-- Integer part of a JSON number: a single zero, or a nonzero digit
followed by digits. -/
def parseIntPart : List Char → Option (List Char × List Char)
  | [] => none
  | c :: t =>
    if c = '0' then some ([c], t)
    else if isDigit c then
      some (c :: (t.span isDigit).1, (t.span isDigit).2)
    else none

/-- Optional fraction part: a dot followed by at least one digit. -/
def parseFracPart : List Char → Option (List Char × List Char)
  | '.' :: u =>
    if (u.span isDigit).1 = [] then none
    else some ('.' :: (u.span isDigit).1, (u.span isDigit).2)
  | s => some ([], s)

/-- Optional exponent part: an exponent marker, an optional sign, and
at least one digit. -/
def parseExpPart : List Char → Option (List Char × List Char)
  | [] => some ([], [])
  | e :: u =>
    if e = 'e' || e = 'E' then
      let p := match u with
        | '+' :: v => ((['+'] : List Char), v)
        | '-' :: v => ((['-'] : List Char), v)
        | v => ([], v)
      if (p.2.span isDigit).1 = [] then none
      else some (e :: (p.1 ++ (p.2.span isDigit).1), (p.2.span isDigit).2)
    else some ([], e :: u)

/-- A complete JSON number token: optional minus, integer part,
optional fraction, optional exponent.  The token is kept as the value. -/
def parseNumTok (s : List Char) : Option (List Char × List Char) :=
  let q := match s with
    | '-' :: t => ((['-'] : List Char), t)
    | t => ([], t)
  match parseIntPart q.2 with
  | none => none
  | some (ip, r1) =>
    match parseFracPart r1 with
    | none => none
    | some (fp, r2) =>
      match parseExpPart r2 with
      | none => none
      | some (ep, r3) => some (q.1 ++ ip ++ fp ++ ep, r3)

mutual

/-- Parse one JSON value after skipping leading whitespace. -/
def parseVal : Nat → List Char → Option (Json × List Char)
  | 0, _ => none
  | fuel + 1, s =>
    match skipWs s with
    | [] => none
    | c :: t =>
      if c = 'n' then
        if ("ull".toList).isPrefixOf t then some (.null, t.drop 3) else none
      else if c = 't' then
        if ("rue".toList).isPrefixOf t then some (.bool true, t.drop 3) else none
      else if c = 'f' then
        if ("alse".toList).isPrefixOf t then some (.bool false, t.drop 4) else none
      else if c = '"' then
        match parseStringBody t with
        | some (content, rest) => some (.str content, rest)
        | none => none
      else if c = '[' then
        match parseArrBody fuel t with
        | some (elems, rest) => some (.arr elems, rest)
        | none => none
      else if c = '{' then
        match parseObjBody fuel t with
        | some (members, rest) => some (.obj members, rest)
        | none => none
      else if c = '-' || isDigit c then
        match parseNumTok (c :: t) with
        | some (tok, rest) => some (.num tok, rest)
        | none => none
      else none

/-- Parse an array body after the opening bracket. -/
def parseArrBody : Nat → List Char → Option (List Json × List Char)
  | 0, _ => none
  | fuel + 1, s =>
    match skipWs s with
    | ']' :: rest => some ([], rest)
    | _ => parseArrItems fuel s

/-- Parse one or more comma-separated array items and the closing
bracket. -/
def parseArrItems : Nat → List Char → Option (List Json × List Char)
  | 0, _ => none
  | fuel + 1, s =>
    match parseVal fuel s with
    | none => none
    | some (v, r) =>
      match skipWs r with
      | ',' :: r2 =>
        match parseArrItems fuel r2 with
        | some (vs, r3) => some (v :: vs, r3)
        | none => none
      | ']' :: r2 => some ([v], r2)
      | _ => none

/-- Parse an object body after the opening brace. -/
def parseObjBody : Nat → List Char → Option (List (List Char × Json) × List Char)
  | 0, _ => none
  | fuel + 1, s =>
    match skipWs s with
    | '}' :: rest => some ([], rest)
    | _ => parseObjMembers fuel s

/-- Parse one or more comma-separated object members and the closing
brace. -/
def parseObjMembers : Nat → List Char → Option (List (List Char × Json) × List Char)
  | 0, _ => none
  | fuel + 1, s =>
    match skipWs s with
    | '"' :: t =>
      match parseStringBody t with
      | some (key, r) =>
        (match skipWs r with
         | ':' :: r2 =>
           match parseVal fuel r2 with
           | some (v, r3) =>
             (match skipWs r3 with
              | ',' :: r4 =>
                match parseObjMembers fuel r4 with
                | some (ms, r5) => some ((key, v) :: ms, r5)
                | none => none
              | '}' :: r4 => some ([(key, v)], r4)
              | _ => none)
           | none => none
         | _ => none)
      | none => none
    | _ => none

end

/-- `JSON.parse`: parse one value and require only whitespace to
remain; any failure (the builtin throwing a syntax error) is `none`. -/
def jsonParse (s : List Char) : Option Json :=
  match parseVal (4 * s.length + 4) s with
  | some (v, rest) => if skipWs rest = [] then some v else none
  | none => none

/-! ## Transport event dispatch (report.service.ts lines 79-103)

For each matched segment the loop parses the data text with
`JSON.parse`, stores `data.id` into `currentReportId` when the event
name is `report`, and then forwards the event on the subject.  An
exception (a JSON syntax error, or the type error of reading `id` from
a null payload) rejects the promise: the catch handler emits one
synthetic error event and completes the subject, abandoning all later
segments.  `processSegments` runs this dispatch over a segment list,
pairing every forwarded event with the `currentReportId` value at the
moment of forwarding. -/

/-- An observable output of the transport: a forwarded frame event, or
the single synthetic error event produced by the catch handler (whose
platform-worded message is not modelled). -/
inductive Emitted where
  | ev (name : List Char) (data : Json)
  | streamError

/-- JavaScript property lookup on a parsed JSON object: the last member
with the key wins, as `JSON.parse` keeps the last duplicate key. -/
def jlookup (k : List Char) : List (List Char × Json) → Option Json
  | [] => none
  | (k2, v) :: t =>
    match jlookup k t with
    | some r => some r
    | none => if k2 = k then some v else none

/-- The JavaScript expression `data.id` on a parsed JSON value: a type
error on null (modelled as `Except.error`), the member or `undefined`
on an object, and `undefined` (merged with null into `none`) on every
other value. -/
def getId : Json → Except Unit (Option Json)
  | .null => .error ()
  | .obj members => .ok (jlookup ("id".toList) members)
  | _ => .ok none

/-- The dispatch loop over complete segments: blank and unmatched
segments are skipped; a matched segment with parseable data forwards
its event, after first storing `data.id` into the session when the
event name is `report`; a JSON syntax error or a type error rejects
the promise, so the catch handler emits one error event and the
stream ends.  Each forwarded event is paired with the session value
at the moment it is forwarded. -/
def processSegments (sess : Option Json) : List (List Char) → List (Emitted × Option Json)
  | [] => []
  | seg :: rest =>
    if isBlankSeg seg then processSegments sess rest
    else
      match findEventName seg, findData seg with
      | some name, some dstr =>
        (match jsonParse dstr with
         | none => [(.streamError, sess)]
         | some data =>
           if name = "report".toList then
             match getId data with
             | .error _ => [(.streamError, sess)]
             | .ok idv => (.ev name data, idv) :: processSegments idv rest
           else (.ev name data, sess) :: processSegments sess rest)
      | _, _ => processSegments sess rest

/-- The stream text of scenario D of the specification: a frame whose
data is not JSON, followed by a well-formed frame. -/
def malformedStream : List Char :=
  ("event: progress\ndata: not-json\n\nevent: complete\ndata: \x7b\x7d\n\n").toList

/-! ## Operation sequences over the state service -/

/-- The guard of a safe operation sequence: an error is only recorded
on a state not yet complete, and a non-null report is only stored on a
state not marked with an error. -/
def opGuard (s : AppState) : Op → Bool
  | .progressError _ => !s.progress.isComplete
  | .report (some _) => !s.progress.hasError
  | _ => true

/-- A sequence of operations is safe from `s` when every operation
satisfies `opGuard` in the state where it runs. -/
def safeOps : AppState → List Op → Bool
  | _, [] => true
  | s, op :: rest => opGuard s op && safeOps (applyOp s op) rest

/-- A concrete research report used in counterexamples and witnesses. -/
def sampleReport : ResearchReport :=
  { id := "r1", question := "q", generated_at := "", executive_summary := "",
    key_findings := [], detailed_analysis := "", protocols := [], limitations := "",
    sources := [], total_papers_searched := 0, papers_used := 0 }

/-- A concrete progress event for the third pipeline step. -/
def evOpenalex : ProgressEvent := ⟨"searching_openalex", "m", none, 20⟩

/-! ## Helper lemmas about the splitter -/

theorem consHead_ne_nil (c : Char) (L : List (List Char)) : consHead c L ≠ [] := by
  cases L <;> simp [consHead]

theorem splitNN_ne_nil (l : List Char) : splitNN l ≠ [] := by
  match l with
  | [] => simp [splitNN]
  | [c] => simp [splitNN]
  | c :: d :: t =>
    rw [splitNN]
    split
    · simp
    · exact consHead_ne_nil _ _

theorem lastSegD_cons {a : List Char} {l : List (List Char)} (h : l ≠ []) :
    lastSegD (a :: l) = lastSegD l := by
  cases l with
  | nil => exact absurd rfl h
  | cons s t => rfl

theorem lastSegD_append (X Y : List (List Char)) (h : Y ≠ []) :
    lastSegD (X ++ Y) = lastSegD Y := by
  induction X with
  | nil => rfl
  | cons x X' ih =>
    rw [List.cons_append, lastSegD_cons, ih]
    exact List.append_ne_nil_of_right_ne_nil _ h

theorem dropLast_append_ne {α : Type} (X Y : List α) (h : Y ≠ []) :
    (X ++ Y).dropLast = X ++ Y.dropLast := by
  induction X with
  | nil => rfl
  | cons x X' ih =>
    rw [List.cons_append]
    cases hXY : X' ++ Y with
    | nil => exact absurd (List.append_eq_nil.mp hXY).2 h
    | cons z zs =>
      rw [List.dropLast_cons₂, ← hXY, ih, List.cons_append]

theorem splitNN_singleton_head (d : Char) (t : List Char) (s : List Char)
    (h : splitNN (d :: t) = [s]) : ∃ r, s = d :: r := by
  cases t with
  | nil =>
    simp [splitNN] at h
    exact ⟨[], h.symm⟩
  | cons e t' =>
    rw [splitNN] at h
    split at h
    · have := splitNN_ne_nil t'
      simp at h
      exact absurd h.2 this
    · cases hS : splitNN (e :: t') with
      | nil => exact absurd hS (splitNN_ne_nil _)
      | cons s' ss' =>
        rw [hS] at h
        simp [consHead] at h
        exact ⟨s', h.1.symm⟩

theorem splitNN_append (a b : List Char) :
    splitNN (a ++ b) = (splitNN a).dropLast ++ splitNN (lastSegD (splitNN a) ++ b) := by
  induction a using splitNN.induct with
  | case1 => simp [splitNN, lastSegD]
  | case2 c =>
    simp [splitNN, lastSegD]
  | case3 c d t hcd ih =>
    have hL : (c :: d :: t) ++ b = c :: d :: (t ++ b) := rfl
    rw [hL, splitNN, splitNN, if_pos hcd, if_pos hcd, ih]
    cases hS : splitNN t with
    | nil => exact absurd hS (splitNN_ne_nil t)
    | cons s ss =>
      rw [List.dropLast_cons₂]
      rfl
  | case4 c d t hcd ih =>
    have hL : (c :: d :: t) ++ b = c :: d :: (t ++ b) := rfl
    have hL2 : (d :: t) ++ b = d :: (t ++ b) := rfl
    rw [hL, splitNN, splitNN, if_neg hcd, if_neg hcd, ← hL2, ih]
    cases hS : splitNN (d :: t) with
    | nil => exact absurd hS (splitNN_ne_nil _)
    | cons s ss =>
      cases ss with
      | nil =>
        obtain ⟨r, hr⟩ := splitNN_singleton_head d t s hS
        subst hr
        show consHead c ([] ++ splitNN ((d :: r) ++ b)) =
          (consHead c [d :: r]).dropLast ++ splitNN (lastSegD (consHead c [d :: r]) ++ b)
        simp only [consHead, List.nil_append, List.dropLast_single, lastSegD]
        have : (c :: d :: r) ++ b = c :: d :: (r ++ b) := rfl
        rw [this, splitNN, if_neg hcd]
        rfl
      | cons z zs =>
        show consHead c ((s :: z :: zs).dropLast ++ splitNN (lastSegD (s :: z :: zs) ++ b)) =
          (consHead c (s :: z :: zs)).dropLast ++
            splitNN (lastSegD (consHead c (s :: z :: zs)) ++ b)
        simp only [consHead, List.dropLast_cons₂, lastSegD]
        rfl

theorem splitNN_of_not_hasNN (l : List Char) (h : hasNN l = false) : splitNN l = [l] := by
  induction l using splitNN.induct with
  | case1 => rfl
  | case2 c => rfl
  | case3 c d t hcd ih =>
    rw [hasNN, if_pos hcd] at h
    exact absurd h (by simp)
  | case4 c d t hcd ih =>
    rw [hasNN, if_neg hcd] at h
    rw [splitNN, if_neg hcd, ih h]
    rfl

theorem hasNN_lastSegD (l : List Char) : hasNN (lastSegD (splitNN l)) = false := by
  induction l using splitNN.induct with
  | case1 => rfl
  | case2 c => rfl
  | case3 c d t hcd ih =>
    rw [splitNN, if_pos hcd, lastSegD_cons (splitNN_ne_nil t)]
    exact ih
  | case4 c d t hcd ih =>
    rw [splitNN, if_neg hcd]
    cases hS : splitNN (d :: t) with
    | nil => exact absurd hS (splitNN_ne_nil _)
    | cons s ss =>
      rw [hS] at ih
      cases ss with
      | nil =>
        obtain ⟨r, hr⟩ := splitNN_singleton_head d t s hS
        subst hr
        show hasNN (lastSegD [c :: d :: r]) = false
        show hasNN (c :: d :: r) = false
        rw [hasNN, if_neg hcd]
        exact ih
      | cons z zs =>
        show hasNN (lastSegD ((c :: s) :: z :: zs)) = false
        rw [lastSegD]
        rw [lastSegD] at ih
        exact ih

theorem parseStep_append (buf c1 c2 : List Char) :
    parseStep buf (c1 ++ c2) =
      ((parseStep buf c1).1 ++ (parseStep (parseStep buf c1).2 c2).1,
       (parseStep (parseStep buf c1).2 c2).2) := by
  show parseStep buf (c1 ++ c2) = _
  unfold parseStep
  simp only
  have h1 : buf ++ (c1 ++ c2) = (buf ++ c1) ++ c2 := (List.append_assoc _ _ _).symm
  rw [h1, splitNN_append (buf ++ c1) c2]
  have hne := splitNN_ne_nil (lastSegD (splitNN (buf ++ c1)) ++ c2)
  rw [dropLast_append_ne _ _ hne, lastSegD_append _ _ hne, List.filterMap_append]

theorem feedChunks_cons_eq (cs : List (List Char)) :
    ∀ buffer c, feedChunks buffer (c :: cs) = parseStep buffer (c ++ cs.flatten) := by
  induction cs with
  | nil =>
    intro buffer c
    show (((parseStep buffer c).1 ++ [], (parseStep buffer c).2)) = _
    simp [feedChunks, List.flatten]
  | cons c2 cs ih =>
    intro buffer c
    show ((parseStep buffer c).1 ++ (feedChunks (parseStep buffer c).2 (c2 :: cs)).1,
          (feedChunks (parseStep buffer c).2 (c2 :: cs)).2) = _
    rw [ih]
    have hj : (c2 :: cs).flatten = c2 ++ cs.flatten := rfl
    rw [hj, parseStep_append buffer c (c2 ++ cs.flatten)]

theorem findEventName_not_blank (seg : List Char) (name : List Char)
    (h : findEventName seg = some name) : isBlankSeg seg = false := by
  induction seg with
  | nil => exact absurd h (by simp [findEventName])
  | cons c t ih =>
    rw [findEventName] at h
    cases hm : matchEventAt (c :: t) with
    | some w =>
      have hc : c = 'e' := by
        rw [matchEventAt] at hm
        by_cases hp : ("event: ".toList).isPrefixOf (c :: t)
        · have hev : "event: ".toList = 'e' :: "vent: ".toList := rfl
          rw [hev] at hp
          simp [List.isPrefixOf] at hp
          exact hp.1.symm
        · rw [if_neg hp] at hm
          exact absurd hm (by simp)
      subst hc
      simp [isBlankSeg, isJsWs]
    | none =>
      rw [hm] at h
      have ht := ih h
      rw [isBlankSeg, List.all_cons]
      rw [isBlankSeg] at ht
      rw [ht, Bool.and_false]

/-! ## Helper lemmas about the state machine -/

theorem applyProgress_isComplete (p : ResearchProgress) (e : ProgressEvent) :
    (applyProgress p e).isComplete = p.isComplete := by
  rw [applyProgress]
  split <;> rfl

theorem applyProgress_hasError (p : ResearchProgress) (e : ProgressEvent) :
    (applyProgress p e).hasError = p.hasError := by
  rw [applyProgress]
  split <;> rfl

theorem safeOps_inv (ops : List Op) :
    ∀ s : AppState,
      ¬(s.progress.isComplete = true ∧ s.progress.hasError = true) →
      safeOps s ops = true →
      ¬((runOps s ops).progress.isComplete = true ∧
        (runOps s ops).progress.hasError = true) := by
  induction ops with
  | nil => intro s h0 _; exact h0
  | cons op rest ih =>
    intro s h0 hsafe
    rw [safeOps, Bool.and_eq_true] at hsafe
    have hstep : runOps s (op :: rest) = runOps (applyOp s op) rest := rfl
    rw [hstep]
    apply ih (applyOp s op) ?_ hsafe.2
    cases op with
    | update e =>
      intro hc
      exact h0 ⟨(applyProgress_isComplete s.progress e) ▸ hc.1,
                (applyProgress_hasError s.progress e) ▸ hc.2⟩
    | progressError msg =>
      intro hc
      have hg : s.progress.isComplete = false := by
        have hg0 := hsafe.1
        rw [opGuard] at hg0
        simpa using hg0
      have hpe : (applyOp s (.progressError msg)).progress.isComplete =
          s.progress.isComplete := rfl
      rw [hpe, hg] at hc
      exact absurd hc.1 (by simp)
    | report r =>
      cases r with
      | some rep =>
        intro hc
        have hg : s.progress.hasError = false := by
          have hg0 := hsafe.1
          rw [opGuard] at hg0
          simpa using hg0
        have hpe : (applyOp s (.report (some rep))).progress.hasError =
            s.progress.hasError := rfl
        rw [hpe, hg] at hc
        exact absurd hc.2 (by simp)
      | none =>
        intro hc
        exact h0 hc
    | loading b msg =>
      cases b with
      | true =>
        intro hc
        have hfalse : (applyOp s (.loading true msg)).progress.isComplete = false := rfl
        rw [hfalse] at hc
        exact absurd hc.1 (by simp)
      | false => intro hc; exact h0 hc
    | reset =>
      intro hc
      have hfalse : (applyOp s .reset).progress.isComplete = false := rfl
      rw [hfalse] at hc
      exact absurd hc.1 (by simp)

theorem mapWithIdx_length {α β : Type} (f : Nat → α → β) (i : Nat) (l : List α) :
    (mapWithIdx f i l).length = l.length := by
  induction l generalizing i with
  | nil => rfl
  | cons a t ih => simp [mapWithIdx, ih]

theorem mapWithIdx_get {α β : Type} (f : Nat → α → β) (l : List α) (i j : Nat)
    (hj : j < l.length) (hj2 : j < (mapWithIdx f i l).length) :
    (mapWithIdx f i l).get ⟨j, hj2⟩ = f (i + j) (l.get ⟨j, hj⟩) := by
  induction l generalizing i j with
  | nil => exact absurd hj (by simp)
  | cons a t ih =>
    cases j with
    | zero => simp [mapWithIdx]
    | succ j2 =>
      have hj' : j2 < t.length := by simpa using hj
      have hj2' : j2 < (mapWithIdx f (i + 1) t).length := by
        rw [mapWithIdx_length]; exact hj'
      show (mapWithIdx f (i + 1) t).get ⟨j2, hj2'⟩ = f (i + (j2 + 1)) ((a :: t).get ⟨j2 + 1, hj⟩)
      rw [ih (i + 1) j2 hj' hj2']
      have harith : i + 1 + j2 = i + (j2 + 1) := by omega
      rw [harith]
      rfl

theorem findIdx?_beq_get {α : Type} (f : α → String) (l : List α) (k : Nat)
    (hk : k < l.length) (hnd : (l.map f).Nodup) :
    l.findIdx? (fun x => f x == f (l.get ⟨k, hk⟩)) = some k := by
  rw [List.findIdx?_eq_some_iff_getElem]
  refine ⟨hk, by simp, ?_⟩
  intro j hji hpj
  have hjk : j < l.length := Nat.lt_trans hji hk
  have hfe : f (l.get ⟨j, hjk⟩) = f (l.get ⟨k, hk⟩) := by simpa using hpj
  have hmj : j < (l.map f).length := by simpa using hjk
  have hmk : k < (l.map f).length := by simpa using hk
  have hfin : (⟨j, hmj⟩ : Fin (l.map f).length) = ⟨k, hmk⟩ :=
    hnd.get_inj_iff.mp (by simpa using hfe)
  have : j = k := congrArg Fin.val hfin
  omega

/-! ## Claim theorems -/

/-- C1, counterexample.  The claimed terminal exclusivity fails on the
code: from the initial state, recording a progress error and then
storing a non-null report yields a state with both `isComplete = true`
and `hasError = true`, because `setReport` never clears `hasError` and
`setProgressError` never clears `isComplete`. -/
theorem terminal_exclusivity_cex :
    ((runOps initialAppState
        [.progressError "boom", .report (some sampleReport)]).progress.isComplete = true) ∧
    ((runOps initialAppState
        [.progressError "boom", .report (some sampleReport)]).progress.hasError = true) := by
  decide

/-- C1, amended.  Terminal exclusivity holds for every operation
sequence from the initial state in which `setProgressError` is never
invoked on a state already marked complete and `setReport` with a
non-null report is never invoked on a state already marked with an
error: no reachable state then has `isComplete = true` and
`hasError = true` simultaneously. -/
theorem terminal_exclusivity_amended (ops : List Op)
    (h : safeOps initialAppState ops = true) :
    ¬((runOps initialAppState ops).progress.isComplete = true ∧
      (runOps initialAppState ops).progress.hasError = true) :=
  safeOps_inv ops initialAppState (by decide) h

/-- C1, witness.  A concrete safe sequence (start loading, one progress
event, then a report) satisfies the guard and never reaches the
forbidden combination. -/
theorem terminal_exclusivity_witness :
    (safeOps initialAppState
      [.loading true "start", .update ⟨"optimizing", "m", none, 5⟩,
       .report (some sampleReport)] = true) ∧
    ¬((runOps initialAppState
        [.loading true "start", .update ⟨"optimizing", "m", none, 5⟩,
         .report (some sampleReport)]).progress.isComplete = true ∧
      (runOps initialAppState
        [.loading true "start", .update ⟨"optimizing", "m", none, 5⟩,
         .report (some sampleReport)]).progress.hasError = true) :=
  ⟨by decide, terminal_exclusivity_amended _ (by decide)⟩

/-- C2.  Framing idempotence: for every way of cutting a text into a
chunk sequence, feeding the chunks one by one through the parse step
with carried remainder emits exactly the same raw frames, in the same
order, as running one parse step on the whole text. -/
theorem framing_idempotence (chunks : List (List Char)) :
    (feedChunks [] chunks).1 = (parseStep [] chunks.flatten).1 := by
  cases chunks with
  | nil => rfl
  | cons c cs =>
    rw [feedChunks_cons_eq cs [] c]
    rfl

/-- C3.  Step ordering postcondition: on a state whose step list
carries the fixed pipeline identifiers, an event matching the step at
index `k` produces a state whose steps below `k` are complete, whose
step `k` is active, and whose steps above `k` are pending, with
`currentStepId` and `progressPercent` taken from the event. -/
theorem step_ordering (p : ResearchProgress) (e : ProgressEvent) (k : Nat)
    (hsteps : p.steps.map (fun st => st.id) = fixedStepIds)
    (hk : k < p.steps.length)
    (hstep : e.step = (p.steps.get ⟨k, hk⟩).id) :
    (∀ i (hi : i < (applyProgress p e).steps.length),
        (i < k → ((applyProgress p e).steps.get ⟨i, hi⟩).status = .complete) ∧
        (i = k → ((applyProgress p e).steps.get ⟨i, hi⟩).status = .active) ∧
        (k < i → ((applyProgress p e).steps.get ⟨i, hi⟩).status = .pending)) ∧
    (applyProgress p e).currentStepId = some e.step ∧
    (applyProgress p e).progressPercent = e.progress := by
  have hnd : (p.steps.map (fun st => st.id)).Nodup := by
    rw [hsteps]; decide
  have hfind : p.steps.findIdx? (fun st => st.id == e.step) = some k := by
    rw [hstep]
    exact findIdx?_beq_get (fun st => st.id) p.steps k hk hnd
  have hsteq : (applyProgress p e).steps =
      mapWithIdx (fun idx step =>
        if idx < k then { step with status := StepStatus.complete }
        else if idx = k then
          { step with status := StepStatus.active, detail := detailOrUndefined e.detail }
        else { step with status := StepStatus.pending }) 0 p.steps := by
    simp only [applyProgress, hfind]
  refine ⟨?_, by simp only [applyProgress, hfind], by simp only [applyProgress, hfind]⟩
  intro i hi
  have hi0 : i < p.steps.length := by
    have h2 := hi
    rw [hsteq, mapWithIdx_length] at h2
    exact h2
  have hgl : (applyProgress p e).steps.get ⟨i, hi⟩ =
      (if 0 + i < k then { p.steps.get ⟨i, hi0⟩ with status := StepStatus.complete }
       else if 0 + i = k then
         { p.steps.get ⟨i, hi0⟩ with
           status := StepStatus.active, detail := detailOrUndefined e.detail }
       else { p.steps.get ⟨i, hi0⟩ with status := StepStatus.pending }) := by
    rw [List.get_of_eq hsteq]
    exact mapWithIdx_get _ p.steps 0 i hi0 _
  refine ⟨fun hlt => ?_, fun heq => ?_, fun hgt => ?_⟩
  · rw [hgl, if_pos (by omega : 0 + i < k)]
  · rw [hgl, if_neg (by omega : ¬(0 + i < k)), if_pos (by omega : 0 + i = k)]
  · rw [hgl, if_neg (by omega : ¬(0 + i < k)), if_neg (by omega : ¬(0 + i = k))]

/-- C3, witness.  The initial state with the event for the third
pipeline step (index 2) realises the postcondition. -/
theorem step_ordering_witness :
    (createInitialProgress.steps.map (fun st => st.id) = fixedStepIds) ∧
    (2 < createInitialProgress.steps.length) ∧
    (evOpenalex.step = (createInitialProgress.steps.get ⟨2, by decide⟩).id) ∧
    ((∀ i (hi : i < (applyProgress createInitialProgress evOpenalex).steps.length),
        (i < 2 → ((applyProgress createInitialProgress evOpenalex).steps.get
          ⟨i, hi⟩).status = .complete) ∧
        (i = 2 → ((applyProgress createInitialProgress evOpenalex).steps.get
          ⟨i, hi⟩).status = .active) ∧
        (2 < i → ((applyProgress createInitialProgress evOpenalex).steps.get
          ⟨i, hi⟩).status = .pending)) ∧
     (applyProgress createInitialProgress evOpenalex).currentStepId = some evOpenalex.step ∧
     (applyProgress createInitialProgress evOpenalex).progressPercent = evOpenalex.progress) :=
  ⟨rfl, by decide, rfl,
   step_ordering createInitialProgress evOpenalex 2 rfl (by decide) rfl⟩

/-- C4, counterexample.  On scenario D of the specification (a frame
whose data is not JSON, followed by a well-formed frame), the code does
not silently discard the malformed frame: `JSON.parse` throws, the
catch handler emits one synthetic error event, and the stream ends, so
the following valid frame is never observed. -/
theorem malformed_frame_cex :
    processSegments none ((splitNN malformedStream).dropLast) = [(.streamError, none)] := rfl

/-- C4, amended.  A complete segment that fails the event/data pattern
match (including a whitespace-only segment) is silently discarded: no
event is emitted, no failure is propagated, and processing of the
remaining segments continues unchanged.  A segment that matches the
pattern but whose data is not valid JSON is not discarded: it rejects
the promise, the catch handler emits a single error event, and the
stream ends. -/
theorem malformed_pattern_skipped (sess : Option Json) (seg : List Char)
    (rest : List (List Char)) (h : extractFrame seg = none) :
    processSegments sess (seg :: rest) = processSegments sess rest := by
  rw [processSegments]
  by_cases hb : isBlankSeg seg
  · rw [if_pos hb]
  · rw [if_neg hb]
    rw [extractFrame, if_neg hb] at h
    cases hE : findEventName seg with
    | none => rfl
    | some name =>
      cases hD : findData seg with
      | none => rfl
      | some dstr =>
        rw [hE, hD] at h
        exact absurd h (by simp)

/-- C4, witness.  A segment with no event/data shape is skipped and the
following valid frame is processed as if the malformed segment were
absent. -/
theorem malformed_pattern_skipped_witness :
    (extractFrame ("garbage".toList) = none) ∧
    processSegments none
        ["garbage".toList, "event: complete\ndata: \x7b\x7d".toList] =
      processSegments none ["event: complete\ndata: \x7b\x7d".toList] :=
  ⟨rfl, malformed_pattern_skipped none _ _ rfl⟩

/-- C5, counterexample.  `progressPercent` is not enforced to be
non-decreasing: from the initial state, an event declaring 50 percent
followed by an event declaring 10 percent makes the stored percentage
decrease. -/
theorem progress_percent_cex :
    (updateProgress (updateProgress initialAppState
        ⟨"optimizing", "m1", none, 50⟩)
        ⟨"ranking", "m2", none, 10⟩).progress.progressPercent <
    (updateProgress initialAppState
        ⟨"optimizing", "m1", none, 50⟩).progress.progressPercent := by
  decide

/-- C5, amended.  `progressPercent` is copied verbatim from each
applied event (and kept for unknown steps); it is therefore
non-decreasing from one event to the next exactly when the declared
value of the event is at least the current percentage — the state
machine trusts the server-declared values and does not itself enforce
monotonicity. -/
theorem progress_percent_amended (s : AppState) (e : ProgressEvent)
    (h : s.progress.progressPercent ≤ e.progress) :
    s.progress.progressPercent ≤ (updateProgress s e).progress.progressPercent := by
  have hp : (updateProgress s e).progress = applyProgress s.progress e := rfl
  rw [hp, applyProgress]
  split
  · exact le_refl _
  · simpa using h

/-- C5, witness.  From the initial state an event declaring 50 percent
does not decrease the stored percentage. -/
theorem progress_percent_witness :
    (initialAppState.progress.progressPercent ≤ (50 : Int)) ∧
    initialAppState.progress.progressPercent ≤
      (updateProgress initialAppState
        ⟨"optimizing", "m1", none, 50⟩).progress.progressPercent :=
  ⟨by decide, progress_percent_amended initialAppState ⟨"optimizing", "m1", none, 50⟩ (by decide)⟩

/-- C6.  Remainder safety: the parse step holds the final split segment
back as the carried remainder, and running the parse step again on that
remainder with no new data emits no frame at all and leaves the
remainder unchanged — so an unterminated buffer is never emitted and
never double-emitted. -/
theorem remainder_safety (buffer chunk : List Char) :
    parseStep ((parseStep buffer chunk).2) [] = ([], (parseStep buffer chunk).2) := by
  have h2 : (parseStep buffer chunk).2 = lastSegD (splitNN (buffer ++ chunk)) := rfl
  rw [h2]
  unfold parseStep
  rw [List.append_nil, splitNN_of_not_hasNN _ (hasNN_lastSegD (buffer ++ chunk))]
  rfl

/-- C7.  Session-before-forward ordering: every frame event named
`report` that the dispatch loop forwards is paired with a session value
that already equals the identifier read from its payload — the
assignment to `currentReportId` happens strictly before the event is
forwarded, so a synchronous consumer of the event sees the updated
session. -/
theorem session_before_forward (segs : List (List Char)) :
    ∀ (sess : Option Json) (p : Emitted × Option Json),
      p ∈ processSegments sess segs →
      ∀ data : Json, p.1 = .ev ("report".toList) data → getId data = .ok p.2 := by
  induction segs with
  | nil =>
    intro sess p hp
    simp [processSegments] at hp
  | cons seg rest ih =>
    intro sess p hp data hrep
    rw [processSegments] at hp
    by_cases hb : isBlankSeg seg
    · rw [if_pos hb] at hp
      exact ih sess p hp data hrep
    · rw [if_neg hb] at hp
      split at hp
      next name dstr hE hD =>
        split at hp
        next hJ =>
          simp only [List.mem_singleton] at hp
          simp [hp] at hrep
        next d hJ =>
          by_cases hr : name = "report".toList
          · rw [if_pos hr] at hp
            split at hp
            next e hG =>
              simp only [List.mem_singleton] at hp
              simp [hp] at hrep
            next idv hG =>
              cases hp with
              | head =>
                have hinj : name = "report".toList ∧ d = data := by
                  simpa [Emitted.ev.injEq] using hrep
                rw [← hinj.2]
                exact hG
              | tail _ hmem =>
                exact ih idv p hmem data hrep
          · rw [if_neg hr] at hp
            cases hp with
            | head =>
              have hinj : name = "report".toList ∧ d = data := by
                simpa [Emitted.ev.injEq] using hrep
              exact absurd hinj.1 hr
            | tail _ hmem =>
              exact ih sess p hmem data hrep
      next hfall =>
        exact ih sess p hp data hrep

/-- C7, witness.  A concrete report frame with identifier r1 is
forwarded paired with a session already holding r1. -/
theorem session_before_forward_witness :
    ((Emitted.ev ("report".toList) (.obj [("id".toList, Json.str ("r1".toList))]),
        some (Json.str ("r1".toList))) ∈
      processSegments none ["event: report\ndata: \x7b\"id\":\"r1\"\x7d".toList]) ∧
    getId (.obj [("id".toList, Json.str ("r1".toList))]) =
      .ok (some (Json.str ("r1".toList))) := by
  have hm : (Emitted.ev ("report".toList) (.obj [("id".toList, Json.str ("r1".toList))]),
      some (Json.str ("r1".toList))) ∈
        processSegments none ["event: report\ndata: \x7b\"id\":\"r1\"\x7d".toList] := by
    rw [show processSegments none ["event: report\ndata: \x7b\"id\":\"r1\"\x7d".toList] =
      [(Emitted.ev ("report".toList) (.obj [("id".toList, Json.str ("r1".toList))]),
        some (Json.str ("r1".toList)))] from rfl]
    exact List.mem_singleton.mpr rfl
  exact ⟨hm, session_before_forward _ none _ hm _ rfl⟩

/-- C8.  Unknown-step no-op: when the event step identifier matches no
step of the state, `updateProgress` leaves the whole `ResearchProgress`
value unchanged in every field. -/
theorem unknown_step_noop (s : AppState) (e : ProgressEvent)
    (h : ∀ st ∈ s.progress.steps, st.id ≠ e.step) :
    (updateProgress s e).progress = s.progress := by
  have hf : s.progress.steps.findIdx? (fun st => st.id == e.step) = none := by
    rw [List.findIdx?_eq_none_iff]
    intro x hx
    simpa using h x hx
  have hp : (updateProgress s e).progress = applyProgress s.progress e := rfl
  rw [hp, applyProgress, hf]

/-- C8, witness.  An event with an identifier outside the fixed
pipeline leaves the initial progress state unchanged. -/
theorem unknown_step_noop_witness :
    (∀ st ∈ initialAppState.progress.steps, st.id ≠ "warp") ∧
    (updateProgress initialAppState ⟨"warp", "m", none, 33⟩).progress =
      initialAppState.progress :=
  ⟨by decide, unknown_step_noop initialAppState ⟨"warp", "m", none, 33⟩ (by decide)⟩

/-- C9.  Unvalidated event-name pass-through: a matched frame whose
data parses as JSON is forwarded with exactly the captured event name
as its type, even when that name is none of progress, report, complete
or error — no validation against the known set takes place. -/
theorem event_name_passthrough (sess : Option Json) (seg : List Char)
    (rest : List (List Char)) (name dstr : List Char) (data : Json)
    (h1 : findEventName seg = some name) (h2 : findData seg = some dstr)
    (h3 : jsonParse dstr = some data)
    (h4 : name ∉ ["progress", "report", "complete", "error"].map String.toList) :
    processSegments sess (seg :: rest) =
      (.ev name data, sess) :: processSegments sess rest := by
  rw [processSegments, if_neg (by simp [findEventName_not_blank seg name h1])]
  simp only [h1, h2, h3]
  rw [if_neg (by simp at h4; exact fun hr => h4.2.1 hr)]

/-- C9, witness.  A frame named bogus is forwarded with type bogus. -/
theorem event_name_passthrough_witness :
    (findEventName ("event: bogus\ndata: 17".toList) = some ("bogus".toList)) ∧
    (findData ("event: bogus\ndata: 17".toList) = some ("17".toList)) ∧
    (jsonParse ("17".toList) = some (.num ("17".toList))) ∧
    (("bogus".toList) ∉ ["progress", "report", "complete", "error"].map String.toList) ∧
    processSegments none ["event: bogus\ndata: 17".toList] =
      (.ev ("bogus".toList) (.num ("17".toList)), none) :: processSegments none [] :=
  ⟨rfl, rfl, rfl, by decide,
   event_name_passthrough none _ [] _ _ _ rfl rfl rfl (by decide)⟩

/-- C10.  Null-report frame condition: storing a null report only
clears the stored report and leaves every other field of the service
state, including the whole progress state, unchanged; the completion
side effects (all steps complete, one hundred percent, completion flag,
error signal cleared) happen exactly on a non-null report. -/
theorem setReport_effects (s : AppState) (r : ResearchReport) :
    (setReport s none = { s with report := none }) ∧
    ((setReport s (some r)).progress.isComplete = true) ∧
    ((setReport s (some r)).progress.progressPercent = 100) ∧
    (∀ st ∈ (setReport s (some r)).progress.steps, st.status = .complete) ∧
    ((setReport s (some r)).error = none) := by
  refine ⟨rfl, rfl, rfl, ?_, rfl⟩
  intro st hst
  have hmap : (setReport s (some r)).progress.steps =
      s.progress.steps.map (fun st0 => { st0 with status := .complete }) := rfl
  rw [hmap] at hst
  obtain ⟨st0, _, rfl⟩ := List.mem_map.mp hst
  rfl

end LPV
